import Mathlib

/-!
Verification of the `triez` radix-trie library.

The development shallowly embeds `src/radix_tree.rs` (the node representation,
`insert` and `contains`) and `src/implementations.rs` (the float decomposition)
into Lean.  A value's decomposition is represented directly as the `List` of its
parts; the trie's stored state is a `Node` tree.  Rust panics (out-of-bounds
`Vec` indexing through the index function, and the explicit `panic!()` on a
`Chain`-child-of-`Chain`) are modelled by `Except`/`Option` failure results.
-/

set_option maxHeartbeats 1000000

namespace Triez

variable {T : Type}

/-- The three node shapes of `radix_tree.rs` (`Empty`, `Normal`, `Compressed`).
`Normal` (the spec's `Branch`) holds the vector of children; `Compressed`
(the spec's `Chain`) holds the run of parts and the single child. -/
inductive Node (T : Type) where
  | empty : Node T
  | normal : List (Node T) → Node T
  | compressed : List T → Node T → Node T

/-- `Node::new_compressed`: wrap the collected items as a chain over an `Empty`
child.  Note the source performs no emptiness check here. -/
def Node.new_compressed (l : List T) : Node T :=
  Node.compressed l Node.empty

/-- `Node::new_normal`: an `alphabet_size`-wide vector of `Empty` children with
the given slots overwritten.  A slot position `≥ alphabet_size` is an
out-of-bounds `Vec` write in the source (a panic), modelled as `none`. -/
def Node.new_normal (positions_and_nodes : List (Nat × Node T)) (alphabet_size : Nat) :
    Option (Node T) :=
  if positions_and_nodes.all (fun pn => pn.1 < alphabet_size) then
    some (Node.normal (positions_and_nodes.foldl
      (fun children pn => children.set pn.1 pn.2)
      (List.replicate alphabet_size Node.empty)))
  else none

/-- The two panic sites of `Trie::insert`: an out-of-bounds slot index
(`children[pos]` / `Vec` write) and the explicit `panic!()` hit when a
`Compressed` node's child is itself `Compressed`. -/
inductive InsertError where
  | oobIndex : InsertError
  | chainChild : InsertError
  deriving DecidableEq

/-- Outcome of the `'compressed` loop of `Trie::insert` up to the point where
it stops advancing `current_pos`: the input ran out (`noChange`, the loop
breaks with no structural edit), the input reached `current_pos ==
compressed.len()` with a part `p` in hand (`atEnd p ps`), or a mismatch was
found (`mismatch pre q qs p ps`: parts before the mismatch, the stored part at
the mismatch, the stored remainder drained after `drain.next()`, the incoming
part, and the incoming remainder). -/
inductive ChainStep (T : Type) where
  | noChange : ChainStep T
  | atEnd : T → List T → ChainStep T
  | mismatch : List T → T → List T → T → List T → ChainStep T

/-- The comparison phase of the `'compressed` loop: advance through the stored
`parts` and the incoming input in lock-step while their `index_fn` images
agree. -/
def chainWalk (idx : T → Nat) : List T → List T → ChainStep T
  | _, [] => ChainStep.noChange
  | [], p :: ps => ChainStep.atEnd p ps
  | q :: qs, p :: ps =>
    if idx q = idx p then
      match chainWalk idx qs ps with
      | ChainStep.mismatch pre q2 qs2 p2 ps2 => ChainStep.mismatch (q :: pre) q2 qs2 p2 ps2
      | r => r
    else ChainStep.mismatch [] q qs p ps

/-- `Trie::insert`'s worklist loop, as a recursive function on the current
node and the remaining (already decomposed) input.  Mirrors the source arm by
arm; `Except.error` marks the panics. -/
def insertGo (idx : T → Nat) (alpha : Nat) : Node T → List T → Except InsertError (Node T)
  | Node.empty, input =>
    -- collect the remaining iterator; replace only when non-empty
    if input.isEmpty then Except.ok Node.empty
    else Except.ok (Node.compressed input Node.empty)
  | Node.normal children, [] => Except.ok (Node.normal children)
  | Node.normal children, p :: ps =>
    -- `let pos = (self.index_fn)(&part); stack.push((&mut children[pos], it))`
    if h : idx p < children.length then
      match insertGo idx alpha (children.get ⟨idx p, h⟩) ps with
      | Except.ok c => Except.ok (Node.normal (children.set (idx p) c))
      | Except.error e => Except.error e
    else Except.error InsertError.oobIndex
  | Node.compressed parts child, input =>
    match chainWalk idx parts input with
    | ChainStep.noChange =>
      -- the input iterator ran out: `break 'compressed` with no edit
      Except.ok (Node.compressed parts child)
    | ChainStep.atEnd p ps =>
      match hc : child with
      | Node.empty =>
        -- extend the chain in place with the rest of the input
        Except.ok (Node.compressed (parts ++ p :: ps) Node.empty)
      | Node.normal children =>
        if h : idx p < children.length then
          match insertGo idx alpha (children.get ⟨idx p, h⟩) ps with
          | Except.ok c =>
            Except.ok (Node.compressed parts (Node.normal (children.set (idx p) c)))
          | Except.error e => Except.error e
        else Except.error InsertError.oobIndex
      | Node.compressed _ _ => Except.error InsertError.chainChild
    | ChainStep.mismatch pre q qs p ps =>
      match hc : child with
      | Node.empty =>
        -- split: keep `pre` in this chain, hang both remainders off a fresh branch
        match Node.new_normal
            [(idx p, Node.new_compressed ps), (idx q, Node.new_compressed qs)] alpha with
        | some branch => Except.ok (Node.compressed pre branch)
        | none => Except.error InsertError.oobIndex
      | Node.normal children =>
        -- re-use the existing branch; the drained remainder goes to slot `idx q`,
        -- the new remainder to slot `idx p`; the stack pops the max-position
        -- entry first
        if h : max (idx p) (idx q) < children.length then
          if idx p < idx q then
            match insertGo idx alpha (children.get ⟨idx q, by omega⟩) qs with
            | Except.ok cq =>
              match insertGo idx alpha (children.get ⟨idx p, by omega⟩) ps with
              | Except.ok cp =>
                Except.ok (Node.compressed pre
                  (Node.normal ((children.set (idx q) cq).set (idx p) cp)))
              | Except.error e => Except.error e
            | Except.error e => Except.error e
          else
            match insertGo idx alpha (children.get ⟨idx p, by omega⟩) ps with
            | Except.ok cp =>
              match insertGo idx alpha (children.get ⟨idx q, by omega⟩) qs with
              | Except.ok cq =>
                Except.ok (Node.compressed pre
                  (Node.normal ((children.set (idx p) cp).set (idx q) cq)))
              | Except.error e => Except.error e
            | Except.error e => Except.error e
        else Except.error InsertError.oobIndex
      | Node.compressed _ _ => Except.error InsertError.chainChild
  termination_by n _ => sizeOf n
  decreasing_by
    all_goals subst_vars
    all_goals refine Nat.lt_of_lt_of_le (List.sizeOf_get children _) ?_
    all_goals simp only [Node.normal.sizeOf_spec, Node.compressed.sizeOf_spec]
    all_goals omega

/-- The chain-comparison loop of `Trie::contains`: consume one input part per
stored part, failing on a mismatch or on input exhaustion; on success return
the input remainder handed to the child. -/
def matchChain (idx : T → Nat) : List T → List T → Option (List T)
  | [], input => some input
  | _ :: _, [] => none
  | q :: qs, p :: ps => if idx q = idx p then matchChain idx qs ps else none

/-- `Trie::contains`'s walk.  `none` models the out-of-bounds `children[pos]`
panic; otherwise `some` of the boolean result. -/
def containsGo (idx : T → Nat) : Node T → List T → Option Bool
  | Node.empty, input => some input.isEmpty
  | Node.normal _, [] => some false
  | Node.normal children, p :: ps =>
    if h : idx p < children.length then containsGo idx (children.get ⟨idx p, h⟩) ps
    else none
  | Node.compressed parts child, input =>
    match matchChain idx parts input with
    | some rest => containsGo idx child rest
    | none => some false
  termination_by n _ => sizeOf n
  decreasing_by
    all_goals first
      | (refine Nat.lt_of_lt_of_le (List.sizeOf_get children _) ?_
         simp only [Node.normal.sizeOf_spec, Node.compressed.sizeOf_spec]
         omega)
      | (simp only [Node.normal.sizeOf_spec, Node.compressed.sizeOf_spec]
         omega)

/-- The `Trie` struct: owned root, index function and alphabet size. -/
structure Trie (T : Type) where
  root : Node T
  index_fn : T → Nat
  alphabet_size : Nat

/-- `Trie::new`: an `Empty` root with the given configuration. -/
def Trie.new (index_fn : T → Nat) (alphabet_size : Nat) : Trie T :=
  { root := Node.empty, index_fn := index_fn, alphabet_size := alphabet_size }

/-- `Trie::insert` on a decomposed value. -/
def Trie.insert (t : Trie T) (parts : List T) : Except InsertError (Trie T) :=
  (insertGo t.index_fn t.alphabet_size t.root parts).map
    (fun r => { t with root := r })

/-- `Trie::contains` on a decomposed value. -/
def Trie.contains (t : Trie T) (parts : List T) : Option Bool :=
  containsGo t.index_fn t.root parts

/-- `impl_decomposable_for_float!(f32)`: `self.to_bits().to_be_bytes()` — the
four big-endian bytes of the 32-bit pattern `bits` (each `as u8` cast
truncates, hence the `% 256`). -/
def decomposeF32 (bits : Nat) : List Nat :=
  [bits / 16777216 % 256, bits / 65536 % 256, bits / 256 % 256, bits % 256]

/-- `impl_decomposable_for_float!(f64)`: the eight big-endian bytes of the
64-bit pattern `bits`. -/
def decomposeF64 (bits : Nat) : List Nat :=
  [bits / 72057594037927936 % 256, bits / 281474976710656 % 256,
   bits / 1099511627776 % 256, bits / 4294967296 % 256,
   bits / 16777216 % 256, bits / 65536 % 256, bits / 256 % 256, bits % 256]

/-- The spec's wording, as an independent definition: the `w`-byte sequence of
the big-endian (most-significant-byte-first) encoding of a number. -/
def bigEndianBytes : Nat → Nat → List Nat
  | 0, _ => []
  | w + 1, x => bigEndianBytes w (x / 256) ++ [x % 256]

/-- Node states reachable from `Trie::new`'s root by successful insertions. -/
inductive Reachable (idx : T → Nat) (alpha : Nat) : Node T → Prop where
  | new : Reachable idx alpha Node.empty
  | step : ∀ {n ps n'}, Reachable idx alpha n →
      insertGo idx alpha n ps = Except.ok n' → Reachable idx alpha n'

/-- Structural well-formedness maintained by insertion: every `Normal` vector
has length `alpha` with well-formed entries, and a `Compressed` node's child is
either `Empty` or `Normal` (never another `Compressed`). -/
inductive Good (alpha : Nat) : Node T → Prop where
  | empty : Good alpha Node.empty
  | normal : ∀ {children : List (Node T)}, children.length = alpha →
      (∀ c ∈ children, Good alpha c) → Good alpha (Node.normal children)
  | chainEmpty : ∀ (parts : List T), Good alpha (Node.compressed parts Node.empty)
  | chainNormal : ∀ {parts : List T} {children : List (Node T)},
      children.length = alpha → (∀ c ∈ children, Good alpha c) →
      Good alpha (Node.compressed parts (Node.normal children))

/-- A root-only invariant: a root `Chain` with an empty run of parts always
has a `Normal` child (a fresh chain at the root is never created empty, and a
split always installs a `Normal` child). -/
def RootOK (n : Node T) : Prop :=
  ∀ c : Node T, n = Node.compressed [] c → ∃ ch, c = Node.normal ch

/-! ### Unfolding lemmas for the insertion and membership walks -/

section Unfold

variable {idx : T → Nat} {alpha : Nat}

theorem insertGo_empty (input : List T) :
    insertGo idx alpha Node.empty input =
      (if input.isEmpty then Except.ok Node.empty
       else Except.ok (Node.compressed input Node.empty)) := by
  simp [insertGo]

theorem insertGo_normal_nil (children : List (Node T)) :
    insertGo idx alpha (Node.normal children) [] = Except.ok (Node.normal children) := by
  simp [insertGo]

theorem insertGo_normal_cons_ok {children : List (Node T)} {p : T} {ps : List T}
    (h : idx p < children.length) {c : Node T}
    (hr : insertGo idx alpha (children.get ⟨idx p, h⟩) ps = Except.ok c) :
    insertGo idx alpha (Node.normal children) (p :: ps) =
      Except.ok (Node.normal (children.set (idx p) c)) := by
  rw [insertGo]
  rw [dif_pos h, hr]

theorem insertGo_normal_cons_err {children : List (Node T)} {p : T} {ps : List T}
    (h : idx p < children.length) {e : InsertError}
    (hr : insertGo idx alpha (children.get ⟨idx p, h⟩) ps = Except.error e) :
    insertGo idx alpha (Node.normal children) (p :: ps) = Except.error e := by
  rw [insertGo]
  rw [dif_pos h, hr]

theorem insertGo_normal_cons_oob {children : List (Node T)} {p : T} {ps : List T}
    (h : ¬ idx p < children.length) :
    insertGo idx alpha (Node.normal children) (p :: ps) =
      Except.error InsertError.oobIndex := by
  rw [insertGo]
  rw [dif_neg h]

theorem insertGo_chain_noChange {parts input : List T} {child : Node T}
    (hw : chainWalk idx parts input = ChainStep.noChange) :
    insertGo idx alpha (Node.compressed parts child) input =
      Except.ok (Node.compressed parts child) := by
  rw [insertGo]
  rw [hw]

theorem insertGo_chain_atEnd_empty {parts input : List T} {p : T} {ps : List T}
    (hw : chainWalk idx parts input = ChainStep.atEnd p ps) :
    insertGo idx alpha (Node.compressed parts Node.empty) input =
      Except.ok (Node.compressed (parts ++ p :: ps) Node.empty) := by
  rw [insertGo]
  rw [hw]

theorem insertGo_chain_atEnd_normal_ok {parts input : List T} {p : T} {ps : List T}
    {children : List (Node T)}
    (hw : chainWalk idx parts input = ChainStep.atEnd p ps)
    (h : idx p < children.length) {c : Node T}
    (hr : insertGo idx alpha (children.get ⟨idx p, h⟩) ps = Except.ok c) :
    insertGo idx alpha (Node.compressed parts (Node.normal children)) input =
      Except.ok (Node.compressed parts (Node.normal (children.set (idx p) c))) := by
  rw [insertGo]
  rw [hw]
  dsimp only
  rw [dif_pos h, hr]

theorem insertGo_chain_atEnd_normal_err {parts input : List T} {p : T} {ps : List T}
    {children : List (Node T)}
    (hw : chainWalk idx parts input = ChainStep.atEnd p ps)
    (h : idx p < children.length) {e : InsertError}
    (hr : insertGo idx alpha (children.get ⟨idx p, h⟩) ps = Except.error e) :
    insertGo idx alpha (Node.compressed parts (Node.normal children)) input =
      Except.error e := by
  rw [insertGo]
  rw [hw]
  dsimp only
  rw [dif_pos h, hr]

theorem insertGo_chain_atEnd_normal_oob {parts input : List T} {p : T} {ps : List T}
    {children : List (Node T)}
    (hw : chainWalk idx parts input = ChainStep.atEnd p ps)
    (h : ¬ idx p < children.length) :
    insertGo idx alpha (Node.compressed parts (Node.normal children)) input =
      Except.error InsertError.oobIndex := by
  rw [insertGo]
  rw [hw]
  dsimp only
  rw [dif_neg h]

theorem insertGo_chain_atEnd_chain {parts input : List T} {p : T} {ps : List T}
    {l : List T} {c : Node T}
    (hw : chainWalk idx parts input = ChainStep.atEnd p ps) :
    insertGo idx alpha (Node.compressed parts (Node.compressed l c)) input =
      Except.error InsertError.chainChild := by
  rw [insertGo]
  rw [hw]

theorem insertGo_chain_mismatch_empty {parts input pre : List T} {q : T} {qs : List T}
    {p : T} {ps : List T}
    (hw : chainWalk idx parts input = ChainStep.mismatch pre q qs p ps) :
    insertGo idx alpha (Node.compressed parts Node.empty) input =
      (match Node.new_normal
          [(idx p, Node.new_compressed ps), (idx q, Node.new_compressed qs)] alpha with
       | some branch => Except.ok (Node.compressed pre branch)
       | none => Except.error InsertError.oobIndex) := by
  rw [insertGo]
  rw [hw]

theorem insertGo_chain_mismatch_chain {parts input pre : List T} {q : T} {qs : List T}
    {p : T} {ps : List T} {l : List T} {c : Node T}
    (hw : chainWalk idx parts input = ChainStep.mismatch pre q qs p ps) :
    insertGo idx alpha (Node.compressed parts (Node.compressed l c)) input =
      Except.error InsertError.chainChild := by
  rw [insertGo]
  rw [hw]

theorem insertGo_chain_mismatch_normal_oob {parts input pre : List T} {q : T} {qs : List T}
    {p : T} {ps : List T} {children : List (Node T)}
    (hw : chainWalk idx parts input = ChainStep.mismatch pre q qs p ps)
    (h : ¬ max (idx p) (idx q) < children.length) :
    insertGo idx alpha (Node.compressed parts (Node.normal children)) input =
      Except.error InsertError.oobIndex := by
  rw [insertGo]
  rw [hw]
  dsimp only
  rw [dif_neg h]

theorem insertGo_chain_mismatch_normal_ok {parts input pre : List T} {q : T} {qs : List T}
    {p : T} {ps : List T} {children : List (Node T)}
    (hw : chainWalk idx parts input = ChainStep.mismatch pre q qs p ps)
    (hp : idx p < children.length) (hq : idx q < children.length)
    {cp cq : Node T}
    (hrp : insertGo idx alpha (children.get ⟨idx p, hp⟩) ps = Except.ok cp)
    (hrq : insertGo idx alpha (children.get ⟨idx q, hq⟩) qs = Except.ok cq) :
    insertGo idx alpha (Node.compressed parts (Node.normal children)) input =
      Except.ok (Node.compressed pre
        (Node.normal ((children.set (idx p) cp).set (idx q) cq))) := by
  rw [insertGo]
  rw [hw]
  dsimp only
  rw [dif_pos (by omega : max (idx p) (idx q) < children.length)]
  by_cases hlt : idx p < idx q
  · rw [if_pos hlt]
    have hrq' : insertGo idx alpha (children.get ⟨idx q, by omega⟩) qs = Except.ok cq := hrq
    rw [hrq']
    have hrp' : insertGo idx alpha (children.get ⟨idx p, by omega⟩) ps = Except.ok cp := hrp
    rw [hrp']
    rw [List.set_comm _ _ _ (by omega)]
  · rw [if_neg hlt]
    have hrp' : insertGo idx alpha (children.get ⟨idx p, by omega⟩) ps = Except.ok cp := hrp
    rw [hrp']
    have hrq' : insertGo idx alpha (children.get ⟨idx q, by omega⟩) qs = Except.ok cq := hrq
    rw [hrq']

theorem containsGo_empty (input : List T) :
    containsGo idx Node.empty input = some input.isEmpty := by
  simp [containsGo]

theorem containsGo_normal_nil (children : List (Node T)) :
    containsGo idx (Node.normal children) [] = some false := by
  simp [containsGo]

theorem containsGo_normal_cons {children : List (Node T)} {p : T} (ps : List T)
    (h : idx p < children.length) :
    containsGo idx (Node.normal children) (p :: ps) =
      containsGo idx (children.get ⟨idx p, h⟩) ps := by
  rw [containsGo]
  rw [dif_pos h]

theorem containsGo_normal_cons_oob {children : List (Node T)} {p : T} (ps : List T)
    (h : ¬ idx p < children.length) :
    containsGo idx (Node.normal children) (p :: ps) = none := by
  rw [containsGo]
  rw [dif_neg h]

theorem containsGo_chain_some {parts input rest : List T} {child : Node T}
    (hm : matchChain idx parts input = some rest) :
    containsGo idx (Node.compressed parts child) input = containsGo idx child rest := by
  rw [containsGo]
  rw [hm]

theorem containsGo_chain_none {parts input : List T} {child : Node T}
    (hm : matchChain idx parts input = none) :
    containsGo idx (Node.compressed parts child) input = some false := by
  rw [containsGo]
  rw [hm]

end Unfold

/-! ### Structure of the chain comparison walks

Two part sequences are compared only through `index_fn`; throughout,
`l₁.map idx = l₂.map idx` states that they agree position by position. -/

section ChainLemmas

variable {idx : T → Nat}

theorem set_get_self {α : Type _} (l : List α) (i : Nat) (h : i < l.length) :
    l.set i (l.get ⟨i, h⟩) = l := by
  apply List.ext_getElem (by simp)
  intro j hj1 hj2
  by_cases hij : i = j
  · subst hij
    simp
  · rw [List.getElem_set_ne hij]

theorem get_set_self {α : Type _} (l : List α) (i : Nat) (c : α)
    (h : i < (l.set i c).length) :
    (l.set i c).get ⟨i, h⟩ = c := by
  simp

theorem get_set_ne {α : Type _} (l : List α) {i j : Nat} (hne : i ≠ j) (c : α)
    (h : j < (l.set i c).length) :
    (l.set i c).get ⟨j, h⟩ = l.get ⟨j, by simpa using h⟩ := by
  simp [List.getElem_set_ne hne]

theorem matchChain_of_map_eq {stored ipre : List T}
    (h : stored.map idx = ipre.map idx) (rest : List T) :
    matchChain idx stored (ipre ++ rest) = some rest := by
  induction stored generalizing ipre with
  | nil =>
    have : ipre = [] := by
      cases ipre
      · rfl
      · simp at h
    subst this
    simp [matchChain]
  | cons q qs ih =>
    cases ipre with
    | nil => simp at h
    | cons p ps =>
      simp only [List.map_cons, List.cons.injEq] at h
      simp [matchChain, h.1, ih h.2]

theorem matchChain_none_of_long {stored ipre : List T}
    (h : stored.map idx = ipre.map idx) (q : T) (qs : List T) :
    matchChain idx (stored ++ q :: qs) ipre = none := by
  induction stored generalizing ipre with
  | nil =>
    have : ipre = [] := by
      cases ipre
      · rfl
      · simp at h
    subst this
    simp [matchChain]
  | cons q0 qs0 ih =>
    cases ipre with
    | nil => simp at h
    | cons p ps =>
      simp only [List.map_cons, List.cons.injEq] at h
      simp [matchChain, h.1, ih h.2]

theorem matchChain_none_of_mismatch {pre ipre : List T}
    (h : pre.map idx = ipre.map idx) {q p : T} (hne : idx q ≠ idx p)
    (qs ps : List T) :
    matchChain idx (pre ++ q :: qs) (ipre ++ p :: ps) = none := by
  induction pre generalizing ipre with
  | nil =>
    have : ipre = [] := by
      cases ipre
      · rfl
      · simp at h
    subst this
    simp [matchChain, hne]
  | cons q0 qs0 ih =>
    cases ipre with
    | nil => simp at h
    | cons a as =>
      simp only [List.map_cons, List.cons.injEq] at h
      simp [matchChain, h.1, ih h.2]

theorem chainWalk_noChange_of_map_eq {stored ipre : List T}
    (h : stored.map idx = ipre.map idx) :
    chainWalk idx stored ipre = ChainStep.noChange := by
  induction stored generalizing ipre with
  | nil =>
    have : ipre = [] := by
      cases ipre
      · rfl
      · simp at h
    subst this
    rfl
  | cons q qs ih =>
    cases ipre with
    | nil => simp at h
    | cons p ps =>
      simp only [List.map_cons, List.cons.injEq] at h
      simp [chainWalk, h.1, ih h.2]

theorem chainWalk_atEnd_of_map_eq {stored ipre : List T}
    (h : stored.map idx = ipre.map idx) (p : T) (ps : List T) :
    chainWalk idx stored (ipre ++ p :: ps) = ChainStep.atEnd p ps := by
  induction stored generalizing ipre with
  | nil =>
    have : ipre = [] := by
      cases ipre
      · rfl
      · simp at h
    subst this
    rfl
  | cons q qs ih =>
    cases ipre with
    | nil => simp at h
    | cons a as =>
      simp only [List.map_cons, List.cons.injEq] at h
      simp [chainWalk, h.1, ih h.2]

theorem chainWalk_noChange_inv {stored input : List T}
    (h : chainWalk idx stored input = ChainStep.noChange) :
    ∃ s1 s2, stored = s1 ++ s2 ∧ s1.map idx = input.map idx := by
  induction stored generalizing input with
  | nil =>
    cases input with
    | nil => exact ⟨[], [], rfl, rfl⟩
    | cons a as => simp [chainWalk] at h
  | cons q qs ih =>
    cases input with
    | nil => exact ⟨[], q :: qs, rfl, rfl⟩
    | cons a as =>
      by_cases he : idx q = idx a
      · simp only [chainWalk, if_pos he] at h
        cases hw : chainWalk idx qs as with
        | noChange =>
          obtain ⟨s1, s2, hst, hm⟩ := ih hw
          exact ⟨q :: s1, s2, by simp [hst], by simp [he, hm]⟩
        | atEnd p2 ps2 => rw [hw] at h; simp at h
        | mismatch pre2 q2 qs2 p2 ps2 => rw [hw] at h; simp at h
      · simp only [chainWalk, if_neg he] at h
        simp at h

theorem chainWalk_atEnd_inv {stored input : List T} {p : T} {ps : List T}
    (h : chainWalk idx stored input = ChainStep.atEnd p ps) :
    ∃ ipre, input = ipre ++ p :: ps ∧ stored.map idx = ipre.map idx := by
  induction stored generalizing input with
  | nil =>
    cases input with
    | nil => simp [chainWalk] at h
    | cons a as =>
      simp only [chainWalk, ChainStep.atEnd.injEq] at h
      obtain ⟨rfl, rfl⟩ := h
      exact ⟨[], rfl, rfl⟩
  | cons q qs ih =>
    cases input with
    | nil => simp [chainWalk] at h
    | cons a as =>
      by_cases he : idx q = idx a
      · simp only [chainWalk, if_pos he] at h
        cases hw : chainWalk idx qs as with
        | noChange => rw [hw] at h; simp at h
        | atEnd p2 ps2 =>
          rw [hw] at h
          simp only [ChainStep.atEnd.injEq] at h
          obtain ⟨rfl, rfl⟩ := h
          obtain ⟨ipre, rfl, hm⟩ := ih hw
          exact ⟨a :: ipre, rfl, by simp [he, hm]⟩
        | mismatch pre2 q2 qs2 p2 ps2 => rw [hw] at h; simp at h
      · simp only [chainWalk, if_neg he] at h
        simp at h

theorem chainWalk_mismatch_inv {stored input pre : List T} {q : T} {qs : List T}
    {p : T} {ps : List T}
    (h : chainWalk idx stored input = ChainStep.mismatch pre q qs p ps) :
    stored = pre ++ q :: qs ∧ idx q ≠ idx p ∧
      ∃ ipre, input = ipre ++ p :: ps ∧ pre.map idx = ipre.map idx := by
  induction stored generalizing input pre with
  | nil =>
    cases input with
    | nil => simp [chainWalk] at h
    | cons a as => simp [chainWalk] at h
  | cons q0 qs0 ih =>
    cases input with
    | nil => simp [chainWalk] at h
    | cons a as =>
      by_cases he : idx q0 = idx a
      · simp only [chainWalk, if_pos he] at h
        cases hw : chainWalk idx qs0 as with
        | noChange => rw [hw] at h; simp at h
        | atEnd p2 ps2 => rw [hw] at h; simp at h
        | mismatch pre2 q2 qs2 p2 ps2 =>
          rw [hw] at h
          simp only [ChainStep.mismatch.injEq] at h
          obtain ⟨rfl, rfl, rfl, rfl, rfl⟩ := h
          obtain ⟨hst, hne, ipre, rfl, hm⟩ := ih hw
          exact ⟨by simp [hst], hne, a :: ipre, rfl, by simp [he, hm]⟩
      · simp only [chainWalk, if_neg he] at h
        simp only [ChainStep.mismatch.injEq] at h
        obtain ⟨rfl, rfl, rfl, rfl, rfl⟩ := h
        exact ⟨rfl, he, [], rfl, rfl⟩

end ChainLemmas

/-! ### The membership walk through a chain, per chain-walk outcome -/

section ContainsChain

variable {idx : T → Nat}

theorem containsGo_chain_of_mismatch {parts input pre : List T} {q : T} {qs : List T}
    {p : T} {ps : List T}
    (hw : chainWalk idx parts input = ChainStep.mismatch pre q qs p ps)
    (child : Node T) :
    containsGo idx (Node.compressed parts child) input = some false := by
  obtain ⟨rfl, hne, ipre, rfl, hm⟩ := chainWalk_mismatch_inv hw
  exact containsGo_chain_none (matchChain_none_of_mismatch hm hne qs ps)

theorem containsGo_chain_of_atEnd {parts input : List T} {p : T} {ps : List T}
    (hw : chainWalk idx parts input = ChainStep.atEnd p ps) (child : Node T) :
    containsGo idx (Node.compressed parts child) input =
      containsGo idx child (p :: ps) := by
  obtain ⟨ipre, rfl, hm⟩ := chainWalk_atEnd_inv hw
  exact containsGo_chain_some (matchChain_of_map_eq hm (p :: ps))

theorem containsGo_chain_of_noChange {parts input : List T}
    (hw : chainWalk idx parts input = ChainStep.noChange) (child : Node T) :
    containsGo idx (Node.compressed parts child) input = some false ∨
      containsGo idx (Node.compressed parts child) input = containsGo idx child [] := by
  obtain ⟨s1, s2, rfl, hm⟩ := chainWalk_noChange_inv hw
  cases s2 with
  | nil =>
    right
    have hmc := matchChain_of_map_eq hm ([] : List T)
    rw [List.append_nil] at hmc
    rw [List.append_nil]
    exact containsGo_chain_some hmc
  | cons q2 qs2 =>
    left
    exact containsGo_chain_none (matchChain_none_of_long hm q2 qs2)

theorem containsGo_nil_ne_none (n : Node T) : containsGo idx n [] ≠ none := by
  suffices h : ∀ (m : Node T) (input : List T), input = [] → containsGo idx m input ≠ none by
    exact h n [] rfl
  intro m input
  induction m, input using containsGo.induct idx with
  | case1 input =>
    intro _
    rw [containsGo_empty]
    simp
  | case2 children =>
    intro _
    rw [containsGo_normal_nil]
    simp
  | case3 children p ps h ih =>
    intro he
    simp at he
  | case4 children p ps h =>
    intro he
    simp at he
  | case5 parts child input rest hm ih =>
    intro he
    subst he
    cases parts with
    | nil =>
      have hr : rest = [] := by
        have heq : matchChain idx ([] : List T) ([] : List T) = some [] := rfl
        rw [heq] at hm
        simpa using hm.symm
      rw [containsGo_chain_some hm]
      subst hr
      exact ih rfl
    | cons q qs =>
      have : matchChain idx (q :: qs) ([] : List T) = none := rfl
      rw [this] at hm
      cases hm
  | case6 parts child input hm =>
    intro _
    rw [containsGo_chain_none hm]
    simp

end ContainsChain

/-! ### Insert and contains walk the same path -/

section SamePath

variable {idx : T → Nat} {alpha : Nat}

/-- If an insertion completes without panicking, then the membership walk for
the same sequence on the *pre-insertion* tree does not panic either. -/
theorem insertGo_ok_containsGo_ne_none (n : Node T) (input : List T) :
    ∀ n', insertGo idx alpha n input = Except.ok n' →
      containsGo idx n input ≠ none := by
  induction n, input using insertGo.induct idx alpha with
  | case1 input hemp =>
    intro n' _
    rw [containsGo_empty]
    simp
  | case2 input hemp =>
    intro n' _
    rw [containsGo_empty]
    simp
  | case3 children =>
    intro n' _
    rw [containsGo_normal_nil]
    simp
  | case4 children p ps h c hr ih =>
    intro n' _
    rw [containsGo_normal_cons ps h]
    exact ih c hr
  | case5 children p ps h e hr ih =>
    intro n' hins
    rw [insertGo_normal_cons_err h hr] at hins
    exact absurd hins (by simp)
  | case6 children p ps h =>
    intro n' hins
    rw [insertGo_normal_cons_oob h] at hins
    exact absurd hins (by simp)
  | case7 parts child input hw =>
    intro n' _
    rcases containsGo_chain_of_noChange hw child with hcc | hcc
    · rw [hcc]
      simp
    · rw [hcc]
      exact containsGo_nil_ne_none child
  | case8 parts input p ps hw =>
    intro n' _
    rw [containsGo_chain_of_atEnd hw Node.empty]
    rw [containsGo_empty]
    simp
  | case9 parts input p ps hw children h c hr ih =>
    intro n' _
    rw [containsGo_chain_of_atEnd hw (Node.normal children)]
    rw [containsGo_normal_cons ps h]
    exact ih c hr
  | case10 parts input p ps hw children h e hr ih =>
    intro n' hins
    rw [insertGo_chain_atEnd_normal_err hw h hr] at hins
    exact absurd hins (by simp)
  | case11 parts input p ps hw children h =>
    intro n' hins
    rw [insertGo_chain_atEnd_normal_oob hw h] at hins
    exact absurd hins (by simp)
  | case12 parts input p ps hw l c =>
    intro n' hins
    rw [insertGo_chain_atEnd_chain hw] at hins
    exact absurd hins (by simp)
  | case13 parts input pre q qs p ps hw branch hnn =>
    intro n' _
    rw [containsGo_chain_of_mismatch hw Node.empty]
    simp
  | case14 parts input pre q qs p ps hw hnn =>
    intro n' _
    rw [containsGo_chain_of_mismatch hw Node.empty]
    simp
  | case15 parts input pre q qs p ps hw children h hlt cq hrq cp hrp ihq ihp =>
    intro n' _
    rw [containsGo_chain_of_mismatch hw (Node.normal children)]
    simp
  | case16 parts input pre q qs p ps hw children h hlt cq hrq e hre ihq ihp =>
    intro n' _
    rw [containsGo_chain_of_mismatch hw (Node.normal children)]
    simp
  | case17 parts input pre q qs p ps hw children h hlt e hre ihq =>
    intro n' _
    rw [containsGo_chain_of_mismatch hw (Node.normal children)]
    simp
  | case18 parts input pre q qs p ps hw children h hlt cp hrp cq hrq ihp ihq =>
    intro n' _
    rw [containsGo_chain_of_mismatch hw (Node.normal children)]
    simp
  | case19 parts input pre q qs p ps hw children h hlt cp hrp e hre ihp ihq =>
    intro n' _
    rw [containsGo_chain_of_mismatch hw (Node.normal children)]
    simp
  | case20 parts input pre q qs p ps hw children h hlt e hre ihp =>
    intro n' _
    rw [containsGo_chain_of_mismatch hw (Node.normal children)]
    simp
  | case21 parts input pre q qs p ps hw children h =>
    intro n' _
    rw [containsGo_chain_of_mismatch hw (Node.normal children)]
    simp
  | case22 parts input pre q qs p ps hw l c =>
    intro n' _
    rw [containsGo_chain_of_mismatch hw (Node.compressed l c)]
    simp

end SamePath

/-! ### What a successful insertion guarantees for membership -/

section InsertContains

variable {idx : T → Nat} {alpha : Nat}

theorem new_normal_pair_inv {pp pq : Nat} {X Y : Node T} {branch : Node T}
    (h : Node.new_normal [(pp, X), (pq, Y)] alpha = some branch) :
    pp < alpha ∧ pq < alpha ∧
      branch = Node.normal
        (((List.replicate alpha (Node.empty : Node T)).set pp X).set pq Y) := by
  by_cases hc : ([(pp, X), (pq, Y)] : List (Nat × Node T)).all
      (fun pn => decide (pn.1 < alpha)) = true
  · rw [Node.new_normal, if_pos hc] at h
    simp only [List.all_cons, List.all_nil, Bool.and_true, Bool.and_eq_true,
      decide_eq_true_eq] at hc
    refine ⟨hc.1, hc.2, ?_⟩
    simp only [List.foldl_cons, List.foldl_nil] at h
    simpa using h.symm
  · rw [Node.new_normal, if_neg hc] at h
    cases h

/-- Main correctness dichotomy for a single insertion: if `insert` succeeds,
then afterwards `contains` on the inserted sequence either answers `true` or
answers exactly what it answered before the insertion (the walk can end by
input exhaustion inside stored structure, in which case the insertion is a
no-op at that point and `contains` stays `false`). -/
theorem insertGo_ok_contains (n : Node T) (input : List T) :
    ∀ n', insertGo idx alpha n input = Except.ok n' →
      containsGo idx n' input = some true ∨
        containsGo idx n' input = containsGo idx n input := by
  induction n, input using insertGo.induct idx alpha with
  | case1 input hemp =>
    intro n' hins
    rw [insertGo_empty, if_pos hemp] at hins
    have hn : n' = Node.empty := by simpa using hins.symm
    subst hn
    left
    rw [containsGo_empty]
    simp [hemp]
  | case2 input hemp =>
    intro n' hins
    rw [insertGo_empty, if_neg hemp] at hins
    have hn : n' = Node.compressed input Node.empty := by simpa using hins.symm
    subst hn
    left
    have hmc := matchChain_of_map_eq (rfl : input.map idx = input.map idx) ([] : List T)
    rw [List.append_nil] at hmc
    rw [containsGo_chain_some hmc, containsGo_empty]
    simp
  | case3 children =>
    intro n' hins
    rw [insertGo_normal_nil] at hins
    have hn : n' = Node.normal children := by simpa using hins.symm
    subst hn
    right
    rfl
  | case4 children p ps h c hr ih =>
    intro n' hins
    rw [insertGo_normal_cons_ok h hr] at hins
    have hn : n' = Node.normal (children.set (idx p) c) := by simpa using hins.symm
    subst hn
    have hlen : idx p < (children.set (idx p) c).length := by simpa using h
    rw [containsGo_normal_cons ps hlen, get_set_self children (idx p) c hlen]
    rcases ih c hr with hc | hc
    · left
      exact hc
    · right
      rw [hc, containsGo_normal_cons ps h]
  | case5 children p ps h e hr ih =>
    intro n' hins
    rw [insertGo_normal_cons_err h hr] at hins
    exact absurd hins (by simp)
  | case6 children p ps h =>
    intro n' hins
    rw [insertGo_normal_cons_oob h] at hins
    exact absurd hins (by simp)
  | case7 parts child input hw =>
    intro n' hins
    rw [insertGo_chain_noChange hw] at hins
    have hn : n' = Node.compressed parts child := by simpa using hins.symm
    subst hn
    right
    rfl
  | case8 parts input p ps hw =>
    intro n' hins
    rw [insertGo_chain_atEnd_empty hw] at hins
    have hn : n' = Node.compressed (parts ++ p :: ps) Node.empty := by
      simpa using hins.symm
    subst hn
    left
    obtain ⟨ipre, rfl, hm⟩ := chainWalk_atEnd_inv hw
    have hm2 : (parts ++ p :: ps).map idx = (ipre ++ p :: ps).map idx := by
      simp [hm]
    have hmc := matchChain_of_map_eq hm2 ([] : List T)
    rw [List.append_nil] at hmc
    rw [containsGo_chain_some hmc, containsGo_empty]
    simp
  | case9 parts input p ps hw children h c hr ih =>
    intro n' hins
    rw [insertGo_chain_atEnd_normal_ok hw h hr] at hins
    have hn : n' = Node.compressed parts (Node.normal (children.set (idx p) c)) := by
      simpa using hins.symm
    subst hn
    have hlen : idx p < (children.set (idx p) c).length := by simpa using h
    rw [containsGo_chain_of_atEnd hw (Node.normal (children.set (idx p) c))]
    rw [containsGo_normal_cons ps hlen, get_set_self children (idx p) c hlen]
    rcases ih c hr with hc | hc
    · left
      exact hc
    · right
      rw [hc, containsGo_chain_of_atEnd hw (Node.normal children),
        containsGo_normal_cons ps h]
  | case10 parts input p ps hw children h e hr ih =>
    intro n' hins
    rw [insertGo_chain_atEnd_normal_err hw h hr] at hins
    exact absurd hins (by simp)
  | case11 parts input p ps hw children h =>
    intro n' hins
    rw [insertGo_chain_atEnd_normal_oob hw h] at hins
    exact absurd hins (by simp)
  | case12 parts input p ps hw l c =>
    intro n' hins
    rw [insertGo_chain_atEnd_chain hw] at hins
    exact absurd hins (by simp)
  | case13 parts input pre q qs p ps hw branch hnn =>
    intro n' hins
    rw [insertGo_chain_mismatch_empty hw] at hins
    rw [hnn] at hins
    have hn : n' = Node.compressed pre branch := by simpa using hins.symm
    subst hn
    obtain ⟨hpa, hqa, rfl⟩ := new_normal_pair_inv hnn
    obtain ⟨hst, hne, ipre, rfl, hm⟩ := chainWalk_mismatch_inv hw
    left
    rw [containsGo_chain_some (matchChain_of_map_eq hm (p :: ps))]
    have hlen : idx p <
        (((List.replicate alpha (Node.empty : Node T)).set (idx p)
          (Node.new_compressed ps)).set (idx q) (Node.new_compressed qs)).length := by
      simpa using hpa
    rw [containsGo_normal_cons ps hlen]
    rw [get_set_ne _ hne _ hlen]
    rw [get_set_self]
    rw [Node.new_compressed]
    have hmc := matchChain_of_map_eq (rfl : ps.map idx = ps.map idx) ([] : List T)
    rw [List.append_nil] at hmc
    rw [containsGo_chain_some hmc, containsGo_empty]
    simp
  | case14 parts input pre q qs p ps hw hnn =>
    intro n' hins
    rw [insertGo_chain_mismatch_empty hw] at hins
    rw [hnn] at hins
    exact absurd hins (by simp)
  | case15 parts input pre q qs p ps hw children h hlt cq hrq cp hrp ihq ihp =>
    intro n' hins
    have hp : idx p < children.length := by omega
    have hq : idx q < children.length := by omega
    rw [insertGo_chain_mismatch_normal_ok hw hp hq hrp hrq] at hins
    have hn : n' = Node.compressed pre
        (Node.normal ((children.set (idx p) cp).set (idx q) cq)) := by
      simpa using hins.symm
    subst hn
    obtain ⟨hst, hne, ipre, rfl, hm⟩ := chainWalk_mismatch_inv hw
    have hlen : idx p < (((children.set (idx p) cp).set (idx q) cq)).length := by
      simpa using hp
    rw [containsGo_chain_some (matchChain_of_map_eq hm (p :: ps))]
    rw [containsGo_normal_cons ps hlen]
    rw [get_set_ne _ hne _ hlen]
    rw [get_set_self]
    rcases ihp cp hrp with hc | hc
    · left
      exact hc
    · rcases Option.ne_none_iff_exists'.mp
        (insertGo_ok_containsGo_ne_none (children.get ⟨idx p, hp⟩) ps cp hrp) with ⟨bb, hbb⟩
      cases bb with
      | true =>
        left
        rw [hc, hbb]
      | false =>
        right
        rw [hc, hbb, containsGo_chain_of_mismatch hw (Node.normal children)]
  | case16 parts input pre q qs p ps hw children h hlt cq hrq e hre ihq ihp =>
    intro n' hins
    have hp : idx p < children.length := by omega
    rw [insertGo] at hins
    rw [hw] at hins
    dsimp only at hins
    rw [dif_pos h, if_pos hlt, hrq, hre] at hins
    exact absurd hins (by simp)
  | case17 parts input pre q qs p ps hw children h hlt e hre ihq =>
    intro n' hins
    rw [insertGo] at hins
    rw [hw] at hins
    dsimp only at hins
    rw [dif_pos h, if_pos hlt, hre] at hins
    exact absurd hins (by simp)
  | case18 parts input pre q qs p ps hw children h hlt cp hrp cq hrq ihp ihq =>
    intro n' hins
    have hp : idx p < children.length := by omega
    have hq : idx q < children.length := by omega
    rw [insertGo_chain_mismatch_normal_ok hw hp hq hrp hrq] at hins
    have hn : n' = Node.compressed pre
        (Node.normal ((children.set (idx p) cp).set (idx q) cq)) := by
      simpa using hins.symm
    subst hn
    obtain ⟨hst, hne, ipre, rfl, hm⟩ := chainWalk_mismatch_inv hw
    have hlen : idx p < (((children.set (idx p) cp).set (idx q) cq)).length := by
      simpa using hp
    rw [containsGo_chain_some (matchChain_of_map_eq hm (p :: ps))]
    rw [containsGo_normal_cons ps hlen]
    rw [get_set_ne _ hne _ hlen]
    rw [get_set_self]
    rcases ihp cp hrp with hc | hc
    · left
      exact hc
    · rcases Option.ne_none_iff_exists'.mp
        (insertGo_ok_containsGo_ne_none (children.get ⟨idx p, hp⟩) ps cp hrp) with ⟨bb, hbb⟩
      cases bb with
      | true =>
        left
        rw [hc, hbb]
      | false =>
        right
        rw [hc, hbb, containsGo_chain_of_mismatch hw (Node.normal children)]
  | case19 parts input pre q qs p ps hw children h hlt cp hrp e hre ihp ihq =>
    intro n' hins
    rw [insertGo] at hins
    rw [hw] at hins
    dsimp only at hins
    rw [dif_pos h, if_neg hlt, hrp, hre] at hins
    exact absurd hins (by simp)
  | case20 parts input pre q qs p ps hw children h hlt e hre ihp =>
    intro n' hins
    rw [insertGo] at hins
    rw [hw] at hins
    dsimp only at hins
    rw [dif_pos h, if_neg hlt, hre] at hins
    exact absurd hins (by simp)
  | case21 parts input pre q qs p ps hw children h =>
    intro n' hins
    rw [insertGo_chain_mismatch_normal_oob hw h] at hins
    exact absurd hins (by simp)
  | case22 parts input pre q qs p ps hw l c =>
    intro n' hins
    rw [insertGo_chain_mismatch_chain hw] at hins
    exact absurd hins (by simp)

end InsertContains

/-! ### Idempotence of insertion -/

section Idempotent

variable {idx : T → Nat} {alpha : Nat}

/-- Re-inserting a just-inserted sequence succeeds and returns the tree
unchanged: the replay matches at every comparison and terminates with no
structural edit. -/
theorem insertGo_idempotent (n : Node T) (input : List T) :
    ∀ n', insertGo idx alpha n input = Except.ok n' →
      insertGo idx alpha n' input = Except.ok n' := by
  induction n, input using insertGo.induct idx alpha with
  | case1 input hemp =>
    intro n' hins
    rw [insertGo_empty, if_pos hemp] at hins
    have hn : n' = Node.empty := by simpa using hins.symm
    subst hn
    rw [insertGo_empty, if_pos hemp]
  | case2 input hemp =>
    intro n' hins
    rw [insertGo_empty, if_neg hemp] at hins
    have hn : n' = Node.compressed input Node.empty := by simpa using hins.symm
    subst hn
    exact insertGo_chain_noChange (chainWalk_noChange_of_map_eq rfl)
  | case3 children =>
    intro n' hins
    rw [insertGo_normal_nil] at hins
    have hn : n' = Node.normal children := by simpa using hins.symm
    subst hn
    exact insertGo_normal_nil children
  | case4 children p ps h c hr ih =>
    intro n' hins
    rw [insertGo_normal_cons_ok h hr] at hins
    have hn : n' = Node.normal (children.set (idx p) c) := by simpa using hins.symm
    subst hn
    have hlen : idx p < (children.set (idx p) c).length := by simpa using h
    have hg : (children.set (idx p) c).get ⟨idx p, hlen⟩ = c :=
      get_set_self children (idx p) c hlen
    rw [insertGo_normal_cons_ok hlen (by rw [hg]; exact ih c hr)]
    rw [List.set_set]
  | case5 children p ps h e hr ih =>
    intro n' hins
    rw [insertGo_normal_cons_err h hr] at hins
    exact absurd hins (by simp)
  | case6 children p ps h =>
    intro n' hins
    rw [insertGo_normal_cons_oob h] at hins
    exact absurd hins (by simp)
  | case7 parts child input hw =>
    intro n' hins
    rw [insertGo_chain_noChange hw] at hins
    have hn : n' = Node.compressed parts child := by simpa using hins.symm
    subst hn
    exact insertGo_chain_noChange hw
  | case8 parts input p ps hw =>
    intro n' hins
    rw [insertGo_chain_atEnd_empty hw] at hins
    have hn : n' = Node.compressed (parts ++ p :: ps) Node.empty := by
      simpa using hins.symm
    subst hn
    obtain ⟨ipre, rfl, hm⟩ := chainWalk_atEnd_inv hw
    have hm2 : (parts ++ p :: ps).map idx = (ipre ++ p :: ps).map idx := by simp [hm]
    exact insertGo_chain_noChange (chainWalk_noChange_of_map_eq hm2)
  | case9 parts input p ps hw children h c hr ih =>
    intro n' hins
    rw [insertGo_chain_atEnd_normal_ok hw h hr] at hins
    have hn : n' = Node.compressed parts (Node.normal (children.set (idx p) c)) := by
      simpa using hins.symm
    subst hn
    have hlen : idx p < (children.set (idx p) c).length := by simpa using h
    have hg : (children.set (idx p) c).get ⟨idx p, hlen⟩ = c :=
      get_set_self children (idx p) c hlen
    rw [insertGo_chain_atEnd_normal_ok hw hlen (by rw [hg]; exact ih c hr)]
    rw [List.set_set]
  | case10 parts input p ps hw children h e hr ih =>
    intro n' hins
    rw [insertGo_chain_atEnd_normal_err hw h hr] at hins
    exact absurd hins (by simp)
  | case11 parts input p ps hw children h =>
    intro n' hins
    rw [insertGo_chain_atEnd_normal_oob hw h] at hins
    exact absurd hins (by simp)
  | case12 parts input p ps hw l c =>
    intro n' hins
    rw [insertGo_chain_atEnd_chain hw] at hins
    exact absurd hins (by simp)
  | case13 parts input pre q qs p ps hw branch hnn =>
    intro n' hins
    rw [insertGo_chain_mismatch_empty hw] at hins
    rw [hnn] at hins
    have hn : n' = Node.compressed pre branch := by simpa using hins.symm
    subst hn
    obtain ⟨hpa, hqa, rfl⟩ := new_normal_pair_inv hnn
    obtain ⟨hst, hne, ipre, rfl, hm⟩ := chainWalk_mismatch_inv hw
    have hw2 := chainWalk_atEnd_of_map_eq hm p ps
    have hlen : idx p <
        (((List.replicate alpha (Node.empty : Node T)).set (idx p)
          (Node.new_compressed ps)).set (idx q) (Node.new_compressed qs)).length := by
      simpa using hpa
    have hg : (((List.replicate alpha (Node.empty : Node T)).set (idx p)
        (Node.new_compressed ps)).set (idx q) (Node.new_compressed qs)).get
          ⟨idx p, hlen⟩ = Node.new_compressed ps := by
      rw [get_set_ne _ hne _ hlen]
      rw [get_set_self]
    have hsub : insertGo idx alpha (Node.new_compressed ps) ps =
        Except.ok (Node.new_compressed ps) := by
      rw [Node.new_compressed]
      exact insertGo_chain_noChange (chainWalk_noChange_of_map_eq rfl)
    rw [insertGo_chain_atEnd_normal_ok hw2 hlen (by rw [hg]; exact hsub)]
    rw [List.set_comm _ _ _ hne, List.set_set]
  | case14 parts input pre q qs p ps hw hnn =>
    intro n' hins
    rw [insertGo_chain_mismatch_empty hw] at hins
    rw [hnn] at hins
    exact absurd hins (by simp)
  | case15 parts input pre q qs p ps hw children h hlt cq hrq cp hrp ihq ihp =>
    intro n' hins
    have hp : idx p < children.length := by omega
    have hq : idx q < children.length := by omega
    rw [insertGo_chain_mismatch_normal_ok hw hp hq hrp hrq] at hins
    have hn : n' = Node.compressed pre
        (Node.normal ((children.set (idx p) cp).set (idx q) cq)) := by
      simpa using hins.symm
    subst hn
    obtain ⟨hst, hne, ipre, rfl, hm⟩ := chainWalk_mismatch_inv hw
    have hw2 := chainWalk_atEnd_of_map_eq hm p ps
    have hlen : idx p < ((children.set (idx p) cp).set (idx q) cq).length := by
      simpa using hp
    have hg : ((children.set (idx p) cp).set (idx q) cq).get ⟨idx p, hlen⟩ = cp := by
      rw [get_set_ne _ hne _ hlen]
      rw [get_set_self]
    rw [insertGo_chain_atEnd_normal_ok hw2 hlen (by rw [hg]; exact ihp cp hrp)]
    rw [List.set_comm _ _ _ hne, List.set_set]
  | case16 parts input pre q qs p ps hw children h hlt cq hrq e hre ihq ihp =>
    intro n' hins
    rw [insertGo] at hins
    rw [hw] at hins
    dsimp only at hins
    rw [dif_pos h, if_pos hlt, hrq, hre] at hins
    exact absurd hins (by simp)
  | case17 parts input pre q qs p ps hw children h hlt e hre ihq =>
    intro n' hins
    rw [insertGo] at hins
    rw [hw] at hins
    dsimp only at hins
    rw [dif_pos h, if_pos hlt, hre] at hins
    exact absurd hins (by simp)
  | case18 parts input pre q qs p ps hw children h hlt cp hrp cq hrq ihp ihq =>
    intro n' hins
    have hp : idx p < children.length := by omega
    have hq : idx q < children.length := by omega
    rw [insertGo_chain_mismatch_normal_ok hw hp hq hrp hrq] at hins
    have hn : n' = Node.compressed pre
        (Node.normal ((children.set (idx p) cp).set (idx q) cq)) := by
      simpa using hins.symm
    subst hn
    obtain ⟨hst, hne, ipre, rfl, hm⟩ := chainWalk_mismatch_inv hw
    have hw2 := chainWalk_atEnd_of_map_eq hm p ps
    have hlen : idx p < ((children.set (idx p) cp).set (idx q) cq).length := by
      simpa using hp
    have hg : ((children.set (idx p) cp).set (idx q) cq).get ⟨idx p, hlen⟩ = cp := by
      rw [get_set_ne _ hne _ hlen]
      rw [get_set_self]
    rw [insertGo_chain_atEnd_normal_ok hw2 hlen (by rw [hg]; exact ihp cp hrp)]
    rw [List.set_comm _ _ _ hne, List.set_set]
  | case19 parts input pre q qs p ps hw children h hlt cp hrp e hre ihp ihq =>
    intro n' hins
    rw [insertGo] at hins
    rw [hw] at hins
    dsimp only at hins
    rw [dif_pos h, if_neg hlt, hrp, hre] at hins
    exact absurd hins (by simp)
  | case20 parts input pre q qs p ps hw children h hlt e hre ihp =>
    intro n' hins
    rw [insertGo] at hins
    rw [hw] at hins
    dsimp only at hins
    rw [dif_pos h, if_neg hlt, hre] at hins
    exact absurd hins (by simp)
  | case21 parts input pre q qs p ps hw children h =>
    intro n' hins
    rw [insertGo_chain_mismatch_normal_oob hw h] at hins
    exact absurd hins (by simp)
  | case22 parts input pre q qs p ps hw l c =>
    intro n' hins
    rw [insertGo_chain_mismatch_chain hw] at hins
    exact absurd hins (by simp)

end Idempotent

/-! ### Structural invariants preserved by insertion -/

section Invariants

variable {idx : T → Nat} {alpha : Nat}

theorem insertGo_good (n : Node T) (input : List T) :
    ∀ n', insertGo idx alpha n input = Except.ok n' → Good alpha n → Good alpha n' := by
  induction n, input using insertGo.induct idx alpha with
  | case1 input hemp =>
    intro n' hins hg
    rw [insertGo_empty, if_pos hemp] at hins
    have hn : n' = Node.empty := by simpa using hins.symm
    subst hn
    exact Good.empty
  | case2 input hemp =>
    intro n' hins hg
    rw [insertGo_empty, if_neg hemp] at hins
    have hn : n' = Node.compressed input Node.empty := by simpa using hins.symm
    subst hn
    exact Good.chainEmpty input
  | case3 children =>
    intro n' hins hg
    rw [insertGo_normal_nil] at hins
    have hn : n' = Node.normal children := by simpa using hins.symm
    subst hn
    exact hg
  | case4 children p ps h c hr ih =>
    intro n' hins hg
    rw [insertGo_normal_cons_ok h hr] at hins
    have hn : n' = Node.normal (children.set (idx p) c) := by simpa using hins.symm
    subst hn
    cases hg with
    | normal hlen hmem =>
      refine Good.normal (by simpa using hlen) ?_
      intro c' hc'
      rcases List.mem_or_eq_of_mem_set hc' with h1 | heq
      · exact hmem c' h1
      · subst heq
        exact ih _ hr (hmem _ (List.get_mem children _ _))
  | case5 children p ps h e hr ih =>
    intro n' hins hg
    rw [insertGo_normal_cons_err h hr] at hins
    exact absurd hins (by simp)
  | case6 children p ps h =>
    intro n' hins hg
    rw [insertGo_normal_cons_oob h] at hins
    exact absurd hins (by simp)
  | case7 parts child input hw =>
    intro n' hins hg
    rw [insertGo_chain_noChange hw] at hins
    have hn : n' = Node.compressed parts child := by simpa using hins.symm
    subst hn
    exact hg
  | case8 parts input p ps hw =>
    intro n' hins hg
    rw [insertGo_chain_atEnd_empty hw] at hins
    have hn : n' = Node.compressed (parts ++ p :: ps) Node.empty := by
      simpa using hins.symm
    subst hn
    exact Good.chainEmpty _
  | case9 parts input p ps hw children h c hr ih =>
    intro n' hins hg
    rw [insertGo_chain_atEnd_normal_ok hw h hr] at hins
    have hn : n' = Node.compressed parts (Node.normal (children.set (idx p) c)) := by
      simpa using hins.symm
    subst hn
    cases hg with
    | chainNormal hlen hmem =>
      refine Good.chainNormal (by simpa using hlen) ?_
      intro c' hc'
      rcases List.mem_or_eq_of_mem_set hc' with h1 | heq
      · exact hmem c' h1
      · subst heq
        exact ih _ hr (hmem _ (List.get_mem children _ _))
  | case10 parts input p ps hw children h e hr ih =>
    intro n' hins hg
    rw [insertGo_chain_atEnd_normal_err hw h hr] at hins
    exact absurd hins (by simp)
  | case11 parts input p ps hw children h =>
    intro n' hins hg
    rw [insertGo_chain_atEnd_normal_oob hw h] at hins
    exact absurd hins (by simp)
  | case12 parts input p ps hw l c =>
    intro n' hins hg
    rw [insertGo_chain_atEnd_chain hw] at hins
    exact absurd hins (by simp)
  | case13 parts input pre q qs p ps hw branch hnn =>
    intro n' hins hg
    rw [insertGo_chain_mismatch_empty hw] at hins
    rw [hnn] at hins
    have hn : n' = Node.compressed pre branch := by simpa using hins.symm
    subst hn
    obtain ⟨hpa, hqa, rfl⟩ := new_normal_pair_inv hnn
    refine Good.chainNormal (by simp) ?_
    intro c' hc'
    rcases List.mem_or_eq_of_mem_set hc' with h1 | rfl
    · rcases List.mem_or_eq_of_mem_set h1 with h2 | rfl
      · rw [List.eq_of_mem_replicate h2]
        exact Good.empty
      · exact Good.chainEmpty _
    · exact Good.chainEmpty _
  | case14 parts input pre q qs p ps hw hnn =>
    intro n' hins hg
    rw [insertGo_chain_mismatch_empty hw] at hins
    rw [hnn] at hins
    exact absurd hins (by simp)
  | case15 parts input pre q qs p ps hw children h hlt cq hrq cp hrp ihq ihp =>
    intro n' hins hg
    have hp : idx p < children.length := by omega
    have hq : idx q < children.length := by omega
    rw [insertGo_chain_mismatch_normal_ok hw hp hq hrp hrq] at hins
    have hn : n' = Node.compressed pre
        (Node.normal ((children.set (idx p) cp).set (idx q) cq)) := by
      simpa using hins.symm
    subst hn
    cases hg with
    | chainNormal hlen hmem =>
      refine Good.chainNormal (by simpa using hlen) ?_
      intro c' hc'
      rcases List.mem_or_eq_of_mem_set hc' with h1 | heq
      · rcases List.mem_or_eq_of_mem_set h1 with h2 | heq2
        · exact hmem c' h2
        · subst heq2
          exact ihp _ hrp (hmem _ (List.get_mem children _ _))
      · subst heq
        exact ihq _ hrq (hmem _ (List.get_mem children _ _))
  | case16 parts input pre q qs p ps hw children h hlt cq hrq e hre ihq ihp =>
    intro n' hins hg
    rw [insertGo] at hins
    rw [hw] at hins
    dsimp only at hins
    rw [dif_pos h, if_pos hlt, hrq, hre] at hins
    exact absurd hins (by simp)
  | case17 parts input pre q qs p ps hw children h hlt e hre ihq =>
    intro n' hins hg
    rw [insertGo] at hins
    rw [hw] at hins
    dsimp only at hins
    rw [dif_pos h, if_pos hlt, hre] at hins
    exact absurd hins (by simp)
  | case18 parts input pre q qs p ps hw children h hlt cp hrp cq hrq ihp ihq =>
    intro n' hins hg
    have hp : idx p < children.length := by omega
    have hq : idx q < children.length := by omega
    rw [insertGo_chain_mismatch_normal_ok hw hp hq hrp hrq] at hins
    have hn : n' = Node.compressed pre
        (Node.normal ((children.set (idx p) cp).set (idx q) cq)) := by
      simpa using hins.symm
    subst hn
    cases hg with
    | chainNormal hlen hmem =>
      refine Good.chainNormal (by simpa using hlen) ?_
      intro c' hc'
      rcases List.mem_or_eq_of_mem_set hc' with h1 | heq
      · rcases List.mem_or_eq_of_mem_set h1 with h2 | heq2
        · exact hmem c' h2
        · subst heq2
          exact ihp _ hrp (hmem _ (List.get_mem children _ _))
      · subst heq
        exact ihq _ hrq (hmem _ (List.get_mem children _ _))
  | case19 parts input pre q qs p ps hw children h hlt cp hrp e hre ihp ihq =>
    intro n' hins hg
    rw [insertGo] at hins
    rw [hw] at hins
    dsimp only at hins
    rw [dif_pos h, if_neg hlt, hrp, hre] at hins
    exact absurd hins (by simp)
  | case20 parts input pre q qs p ps hw children h hlt e hre ihp =>
    intro n' hins hg
    rw [insertGo] at hins
    rw [hw] at hins
    dsimp only at hins
    rw [dif_pos h, if_neg hlt, hre] at hins
    exact absurd hins (by simp)
  | case21 parts input pre q qs p ps hw children h =>
    intro n' hins hg
    rw [insertGo_chain_mismatch_normal_oob hw h] at hins
    exact absurd hins (by simp)
  | case22 parts input pre q qs p ps hw l c =>
    intro n' hins hg
    rw [insertGo_chain_mismatch_chain hw] at hins
    exact absurd hins (by simp)

/-- Every reachable tree state is structurally well formed. -/
theorem reachable_good {n : Node T} (h : Reachable idx alpha n) : Good alpha n := by
  induction h with
  | new => exact Good.empty
  | step hreach hins ih => exact insertGo_good _ _ _ hins ih

/-- On a well-formed tree, insertion can never hit the `panic!()` that signals
a `Chain` whose child is another `Chain`. -/
theorem good_insertGo_ne_chainChild (n : Node T) (input : List T) :
    Good alpha n →
      insertGo idx alpha n input ≠ Except.error InsertError.chainChild := by
  induction n, input using insertGo.induct idx alpha with
  | case1 input hemp =>
    intro hg
    rw [insertGo_empty, if_pos hemp]
    simp
  | case2 input hemp =>
    intro hg
    rw [insertGo_empty, if_neg hemp]
    simp
  | case3 children =>
    intro hg
    rw [insertGo_normal_nil]
    simp
  | case4 children p ps h c hr ih =>
    intro hg
    rw [insertGo_normal_cons_ok h hr]
    simp
  | case5 children p ps h e hr ih =>
    intro hg
    cases hg with
    | normal hlen hmem =>
      rw [insertGo_normal_cons_err h hr]
      intro hcon
      have he : e = InsertError.chainChild := by simpa using hcon
      subst he
      exact ih (hmem _ (List.get_mem children _ _)) hr
  | case6 children p ps h =>
    intro hg
    rw [insertGo_normal_cons_oob h]
    simp
  | case7 parts child input hw =>
    intro hg
    rw [insertGo_chain_noChange hw]
    simp
  | case8 parts input p ps hw =>
    intro hg
    rw [insertGo_chain_atEnd_empty hw]
    simp
  | case9 parts input p ps hw children h c hr ih =>
    intro hg
    rw [insertGo_chain_atEnd_normal_ok hw h hr]
    simp
  | case10 parts input p ps hw children h e hr ih =>
    intro hg
    cases hg with
    | chainNormal hlen hmem =>
      rw [insertGo_chain_atEnd_normal_err hw h hr]
      intro hcon
      have he : e = InsertError.chainChild := by simpa using hcon
      subst he
      exact ih (hmem _ (List.get_mem children _ _)) hr
  | case11 parts input p ps hw children h =>
    intro hg
    rw [insertGo_chain_atEnd_normal_oob hw h]
    simp
  | case12 parts input p ps hw l c =>
    intro hg
    cases hg
  | case13 parts input pre q qs p ps hw branch hnn =>
    intro hg
    rw [insertGo_chain_mismatch_empty hw]
    rw [hnn]
    simp
  | case14 parts input pre q qs p ps hw hnn =>
    intro hg
    rw [insertGo_chain_mismatch_empty hw]
    rw [hnn]
    simp
  | case15 parts input pre q qs p ps hw children h hlt cq hrq cp hrp ihq ihp =>
    intro hg
    have hp : idx p < children.length := by omega
    have hq : idx q < children.length := by omega
    rw [insertGo_chain_mismatch_normal_ok hw hp hq hrp hrq]
    simp
  | case16 parts input pre q qs p ps hw children h hlt cq hrq e hre ihq ihp =>
    intro hg
    cases hg with
    | chainNormal hlen hmem =>
      rw [insertGo]
      rw [hw]
      dsimp only
      rw [dif_pos h, if_pos hlt, hrq, hre]
      intro hcon
      have he : e = InsertError.chainChild := by simpa using hcon
      subst he
      exact ihp (hmem _ (List.get_mem children _ _)) hre
  | case17 parts input pre q qs p ps hw children h hlt e hre ihq =>
    intro hg
    cases hg with
    | chainNormal hlen hmem =>
      rw [insertGo]
      rw [hw]
      dsimp only
      rw [dif_pos h, if_pos hlt, hre]
      intro hcon
      have he : e = InsertError.chainChild := by simpa using hcon
      subst he
      exact ihq (hmem _ (List.get_mem children _ _)) hre
  | case18 parts input pre q qs p ps hw children h hlt cp hrp cq hrq ihp ihq =>
    intro hg
    have hp : idx p < children.length := by omega
    have hq : idx q < children.length := by omega
    rw [insertGo_chain_mismatch_normal_ok hw hp hq hrp hrq]
    simp
  | case19 parts input pre q qs p ps hw children h hlt cp hrp e hre ihp ihq =>
    intro hg
    cases hg with
    | chainNormal hlen hmem =>
      rw [insertGo]
      rw [hw]
      dsimp only
      rw [dif_pos h, if_neg hlt, hrp, hre]
      intro hcon
      have he : e = InsertError.chainChild := by simpa using hcon
      subst he
      exact ihq (hmem _ (List.get_mem children _ _)) hre
  | case20 parts input pre q qs p ps hw children h hlt e hre ihp =>
    intro hg
    cases hg with
    | chainNormal hlen hmem =>
      rw [insertGo]
      rw [hw]
      dsimp only
      rw [dif_pos h, if_neg hlt, hre]
      intro hcon
      have he : e = InsertError.chainChild := by simpa using hcon
      subst he
      exact ihp (hmem _ (List.get_mem children _ _)) hre
  | case21 parts input pre q qs p ps hw children h =>
    intro hg
    rw [insertGo_chain_mismatch_normal_oob hw h]
    simp
  | case22 parts input pre q qs p ps hw l c =>
    intro hg
    cases hg

end Invariants

/-! ### The root invariant and contains on the empty sequence -/

section RootInvariant

variable {idx : T → Nat} {alpha : Nat}

theorem insertGo_rootOK (n : Node T) (input : List T) :
    ∀ n', insertGo idx alpha n input = Except.ok n' → RootOK n → RootOK n' := by
  induction n, input using insertGo.induct idx alpha with
  | case1 input hemp =>
    intro n' hins hro
    rw [insertGo_empty, if_pos hemp] at hins
    have hn : n' = Node.empty := by simpa using hins.symm
    subst hn
    intro c hc
    cases hc
  | case2 input hemp =>
    intro n' hins hro
    rw [insertGo_empty, if_neg hemp] at hins
    have hn : n' = Node.compressed input Node.empty := by simpa using hins.symm
    subst hn
    intro c hc
    cases hc
    simp at hemp
  | case3 children =>
    intro n' hins hro
    rw [insertGo_normal_nil] at hins
    have hn : n' = Node.normal children := by simpa using hins.symm
    subst hn
    intro c hc
    cases hc
  | case4 children p ps h c hr ih =>
    intro n' hins hro
    rw [insertGo_normal_cons_ok h hr] at hins
    have hn : n' = Node.normal (children.set (idx p) c) := by simpa using hins.symm
    subst hn
    intro c' hc'
    cases hc'
  | case5 children p ps h e hr ih =>
    intro n' hins hro
    rw [insertGo_normal_cons_err h hr] at hins
    exact absurd hins (by simp)
  | case6 children p ps h =>
    intro n' hins hro
    rw [insertGo_normal_cons_oob h] at hins
    exact absurd hins (by simp)
  | case7 parts child input hw =>
    intro n' hins hro
    rw [insertGo_chain_noChange hw] at hins
    have hn : n' = Node.compressed parts child := by simpa using hins.symm
    subst hn
    exact hro
  | case8 parts input p ps hw =>
    intro n' hins hro
    rw [insertGo_chain_atEnd_empty hw] at hins
    have hn : n' = Node.compressed (parts ++ p :: ps) Node.empty := by
      simpa using hins.symm
    subst hn
    intro c hc
    rw [Node.compressed.injEq] at hc
    exact absurd hc.1 (by simp)
  | case9 parts input p ps hw children h c hr ih =>
    intro n' hins hro
    rw [insertGo_chain_atEnd_normal_ok hw h hr] at hins
    have hn : n' = Node.compressed parts (Node.normal (children.set (idx p) c)) := by
      simpa using hins.symm
    subst hn
    intro c' hc'
    rw [Node.compressed.injEq] at hc'
    exact ⟨_, hc'.2.symm⟩
  | case10 parts input p ps hw children h e hr ih =>
    intro n' hins hro
    rw [insertGo_chain_atEnd_normal_err hw h hr] at hins
    exact absurd hins (by simp)
  | case11 parts input p ps hw children h =>
    intro n' hins hro
    rw [insertGo_chain_atEnd_normal_oob hw h] at hins
    exact absurd hins (by simp)
  | case12 parts input p ps hw l c =>
    intro n' hins hro
    rw [insertGo_chain_atEnd_chain hw] at hins
    exact absurd hins (by simp)
  | case13 parts input pre q qs p ps hw branch hnn =>
    intro n' hins hro
    rw [insertGo_chain_mismatch_empty hw] at hins
    rw [hnn] at hins
    have hn : n' = Node.compressed pre branch := by simpa using hins.symm
    subst hn
    obtain ⟨hpa, hqa, rfl⟩ := new_normal_pair_inv hnn
    intro c' hc'
    rw [Node.compressed.injEq] at hc'
    exact ⟨_, hc'.2.symm⟩
  | case14 parts input pre q qs p ps hw hnn =>
    intro n' hins hro
    rw [insertGo_chain_mismatch_empty hw] at hins
    rw [hnn] at hins
    exact absurd hins (by simp)
  | case15 parts input pre q qs p ps hw children h hlt cq hrq cp hrp ihq ihp =>
    intro n' hins hro
    have hp : idx p < children.length := by omega
    have hq : idx q < children.length := by omega
    rw [insertGo_chain_mismatch_normal_ok hw hp hq hrp hrq] at hins
    have hn : n' = Node.compressed pre
        (Node.normal ((children.set (idx p) cp).set (idx q) cq)) := by
      simpa using hins.symm
    subst hn
    intro c' hc'
    rw [Node.compressed.injEq] at hc'
    exact ⟨_, hc'.2.symm⟩
  | case16 parts input pre q qs p ps hw children h hlt cq hrq e hre ihq ihp =>
    intro n' hins hro
    rw [insertGo] at hins
    rw [hw] at hins
    dsimp only at hins
    rw [dif_pos h, if_pos hlt, hrq, hre] at hins
    exact absurd hins (by simp)
  | case17 parts input pre q qs p ps hw children h hlt e hre ihq =>
    intro n' hins hro
    rw [insertGo] at hins
    rw [hw] at hins
    dsimp only at hins
    rw [dif_pos h, if_pos hlt, hre] at hins
    exact absurd hins (by simp)
  | case18 parts input pre q qs p ps hw children h hlt cp hrp cq hrq ihp ihq =>
    intro n' hins hro
    have hp : idx p < children.length := by omega
    have hq : idx q < children.length := by omega
    rw [insertGo_chain_mismatch_normal_ok hw hp hq hrp hrq] at hins
    have hn : n' = Node.compressed pre
        (Node.normal ((children.set (idx p) cp).set (idx q) cq)) := by
      simpa using hins.symm
    subst hn
    intro c' hc'
    rw [Node.compressed.injEq] at hc'
    exact ⟨_, hc'.2.symm⟩
  | case19 parts input pre q qs p ps hw children h hlt cp hrp e hre ihp ihq =>
    intro n' hins hro
    rw [insertGo] at hins
    rw [hw] at hins
    dsimp only at hins
    rw [dif_pos h, if_neg hlt, hrp, hre] at hins
    exact absurd hins (by simp)
  | case20 parts input pre q qs p ps hw children h hlt e hre ihp =>
    intro n' hins hro
    rw [insertGo] at hins
    rw [hw] at hins
    dsimp only at hins
    rw [dif_pos h, if_neg hlt, hre] at hins
    exact absurd hins (by simp)
  | case21 parts input pre q qs p ps hw children h =>
    intro n' hins hro
    rw [insertGo_chain_mismatch_normal_oob hw h] at hins
    exact absurd hins (by simp)
  | case22 parts input pre q qs p ps hw l c =>
    intro n' hins hro
    rw [insertGo_chain_mismatch_chain hw] at hins
    exact absurd hins (by simp)

theorem reachable_rootOK {n : Node T} (h : Reachable idx alpha n) : RootOK n := by
  induction h with
  | new => intro c hc; cases hc
  | step hreach hins ih => exact insertGo_rootOK _ _ _ hins ih

/-- On any reachable state whose root is no longer `Empty`, `contains` of the
empty part sequence answers `false`. -/
theorem reachable_contains_nil_false {n : Node T}
    (hr : Reachable idx alpha n) (hne : n ≠ Node.empty) :
    containsGo idx n [] = some false := by
  cases n with
  | empty => exact absurd rfl hne
  | normal children => exact containsGo_normal_nil children
  | compressed parts child =>
    cases parts with
    | nil =>
      obtain ⟨ch, rfl⟩ := reachable_rootOK hr child rfl
      rw [containsGo_chain_some
        (show matchChain idx ([] : List T) [] = some [] from rfl)]
      exact containsGo_normal_nil ch
    | cons q qs =>
      exact containsGo_chain_none
        (show matchChain idx (q :: qs) [] = none from rfl)

end RootInvariant

/-! ### `contains` observes parts only through the index function -/

section Congruence

variable {idx : T → Nat}

theorem matchChain_congr {P Q : List T} (h : P.map idx = Q.map idx)
    (parts : List T) :
    (matchChain idx parts P = none ∧ matchChain idx parts Q = none) ∨
      ∃ rp rq, matchChain idx parts P = some rp ∧ matchChain idx parts Q = some rq ∧
        rp.map idx = rq.map idx := by
  induction parts generalizing P Q with
  | nil => exact Or.inr ⟨P, Q, rfl, rfl, h⟩
  | cons q qs ih =>
    cases P with
    | nil =>
      cases Q with
      | nil => exact Or.inl ⟨rfl, rfl⟩
      | cons b bs => simp at h
    | cons a as =>
      cases Q with
      | nil => simp at h
      | cons b bs =>
        simp only [List.map_cons, List.cons.injEq] at h
        by_cases he : idx q = idx a
        · have he2 : idx q = idx b := by rw [he, h.1]
          have heq1 : matchChain idx (q :: qs) (a :: as) = matchChain idx qs as := by
            rw [matchChain, if_pos he]
          have heq2 : matchChain idx (q :: qs) (b :: bs) = matchChain idx qs bs := by
            rw [matchChain, if_pos he2]
          rw [heq1, heq2]
          exact ih h.2
        · have he2 : ¬ idx q = idx b := by rw [← h.1]; exact he
          refine Or.inl ⟨?_, ?_⟩
          · rw [matchChain, if_neg he]
          · rw [matchChain, if_neg he2]

/-- Membership depends on a query sequence only through the position-wise
images of its parts under the index function. -/
theorem containsGo_congr (n : Node T) (P : List T) :
    ∀ Q, P.map idx = Q.map idx → containsGo idx n P = containsGo idx n Q := by
  induction n, P using containsGo.induct idx with
  | case1 input =>
    intro Q h
    rw [containsGo_empty, containsGo_empty]
    cases input with
    | nil =>
      have : Q = [] := by
        cases Q
        · rfl
        · simp at h
      subst this
      rfl
    | cons a as =>
      cases Q with
      | nil => simp at h
      | cons b bs => rfl
  | case2 children =>
    intro Q h
    have : Q = [] := by
      cases Q
      · rfl
      · simp at h
    subst this
    rfl
  | case3 children p ps h ih =>
    intro Q hm
    cases Q with
    | nil => simp at hm
    | cons b bs =>
      simp only [List.map_cons, List.cons.injEq] at hm
      have hb : idx b < children.length := by rw [← hm.1]; exact h
      rw [containsGo_normal_cons ps h, containsGo_normal_cons bs hb]
      have hgeq : children.get ⟨idx p, h⟩ = children.get ⟨idx b, hb⟩ := by
        congr 1
        exact Fin.ext hm.1
      rw [← hgeq]
      exact ih bs hm.2
  | case4 children p ps h =>
    intro Q hm
    cases Q with
    | nil => simp at hm
    | cons b bs =>
      simp only [List.map_cons, List.cons.injEq] at hm
      have hb : ¬ idx b < children.length := by rw [← hm.1]; exact h
      rw [containsGo_normal_cons_oob ps h, containsGo_normal_cons_oob bs hb]
  | case5 parts child input rest hmc ih =>
    intro Q hm
    rcases matchChain_congr hm parts with ⟨h1, h2⟩ | ⟨rp, rq, h1, h2, h3⟩
    · rw [hmc] at h1
      cases h1
    · rw [hmc] at h1
      have hrp : rp = rest := by simpa using h1.symm
      subst hrp
      rw [containsGo_chain_some hmc, containsGo_chain_some h2]
      exact ih rq h3
  | case6 parts child input hmc =>
    intro Q hm
    rcases matchChain_congr hm parts with ⟨h1, h2⟩ | ⟨rp, rq, h1, h2, h3⟩
    · rw [containsGo_chain_none hmc, containsGo_chain_none h2]
    · rw [hmc] at h1
      cases h1

end Congruence

/-! ### Float decomposition: big-endian bytes of the bit pattern -/

section Floats

theorem decomposeF32_eq_bigEndianBytes (x : Nat) :
    decomposeF32 x = bigEndianBytes 4 x := by
  show decomposeF32 x = bigEndianBytes (3 + 1) x
  simp [decomposeF32, bigEndianBytes, Nat.div_div_eq_div_mul]

theorem decomposeF64_eq_bigEndianBytes (x : Nat) :
    decomposeF64 x = bigEndianBytes 8 x := by
  show decomposeF64 x = bigEndianBytes (7 + 1) x
  simp [decomposeF64, bigEndianBytes, Nat.div_div_eq_div_mul]

theorem decomposeF32_injective {x y : Nat}
    (hx : x < 4294967296) (hy : y < 4294967296) (hne : x ≠ y) :
    decomposeF32 x ≠ decomposeF32 y := by
  intro h
  simp only [decomposeF32, List.cons.injEq, and_true] at h
  omega

theorem decomposeF64_injective {x y : Nat}
    (hx : x < 18446744073709551616) (hy : y < 18446744073709551616) (hne : x ≠ y) :
    decomposeF64 x ≠ decomposeF64 y := by
  intro h
  simp only [decomposeF64, List.cons.injEq, and_true] at h
  omega

end Floats

/-! ### Concrete evaluations used by the counterexamples and witnesses -/

section Examples

theorem eval_id_insert_01 :
    insertGo (fun n => n) 2 (Node.empty : Node Nat) [0, 1] =
      Except.ok (Node.compressed [0, 1] Node.empty) := by
  simp [insertGo]

theorem eval_id_reinsert_0 :
    insertGo (fun n => n) 2 (Node.compressed [0, 1] (Node.empty : Node Nat)) [0] =
      Except.ok (Node.compressed [0, 1] Node.empty) := by
  simp [insertGo, chainWalk]

theorem eval_id_contains_0 :
    containsGo (fun n => n) (Node.compressed [0, 1] (Node.empty : Node Nat)) [0] =
      some false := by
  simp [containsGo, matchChain]

theorem eval_id_insert_0 :
    insertGo (fun n => n) 2 (Node.empty : Node Nat) [0] =
      Except.ok (Node.compressed [0] Node.empty) := by
  simp [insertGo]

theorem eval_id_insert_1_after_0 :
    insertGo (fun n => n) 2 (Node.compressed [0] (Node.empty : Node Nat)) [1] =
      Except.ok (Node.compressed []
        (Node.normal [Node.compressed [] Node.empty, Node.compressed [] Node.empty])) := by
  simp [insertGo, chainWalk, Node.new_normal, Node.new_compressed]

theorem eval4_insert_01 :
    insertGo (fun n => n) 4 (Node.empty : Node Nat) [0, 1] =
      Except.ok (Node.compressed [0, 1] Node.empty) := by
  simp [insertGo]

theorem eval4_insert_02 :
    insertGo (fun n => n) 4 (Node.compressed [0, 1] (Node.empty : Node Nat)) [0, 2] =
      Except.ok (Node.compressed [0]
        (Node.normal [Node.empty, Node.compressed [] Node.empty,
          Node.compressed [] Node.empty, Node.empty])) := by
  simp [insertGo, chainWalk, Node.new_normal, Node.new_compressed]

theorem eval4_insert_31 :
    insertGo (fun n => n) 4
      (Node.compressed [0]
        (Node.normal [Node.empty, Node.compressed [] Node.empty,
          Node.compressed [] (Node.empty : Node Nat), Node.empty])) [3, 1] =
      Except.ok (Node.compressed []
        (Node.normal [Node.empty, Node.compressed [] Node.empty,
          Node.compressed [] Node.empty, Node.compressed [1] Node.empty])) := by
  simp only [insertGo, chainWalk]
  norm_num
  simp [insertGo, Node.new_normal, Node.new_compressed]

theorem eval4_contains_01_lost :
    containsGo (fun n => n)
      (Node.compressed []
        (Node.normal [Node.empty, Node.compressed [] Node.empty,
          Node.compressed [] (Node.empty : Node Nat), Node.compressed [1] Node.empty]))
      [0, 1] = some false := by
  simp [containsGo, matchChain]

theorem eval4_contains_31_present :
    containsGo (fun n => n)
      (Node.compressed []
        (Node.normal [Node.empty, Node.compressed [] Node.empty,
          Node.compressed [] (Node.empty : Node Nat), Node.compressed [1] Node.empty]))
      [3, 1] = some true := by
  simp only [containsGo, matchChain]
  norm_num
  simp [containsGo, matchChain]

theorem eval_mod2_insert_01 :
    insertGo (fun n => n % 2) 2 (Node.empty : Node Nat) [0, 1] =
      Except.ok (Node.compressed [0, 1] Node.empty) := by
  simp [insertGo]

theorem eval_mod2_reinsert_0 :
    insertGo (fun n => n % 2) 2 (Node.compressed [0, 1] (Node.empty : Node Nat)) [0] =
      Except.ok (Node.compressed [0, 1] Node.empty) := by
  simp [insertGo, chainWalk]

theorem eval_mod2_contains_2 :
    containsGo (fun n => n % 2) (Node.compressed [0, 1] (Node.empty : Node Nat)) [2] =
      some false := by
  simp [containsGo, matchChain]

end Examples

/-! ### The claims -/

section Claims

/-- C1 (counterexample): on the reachable trie holding the sequence `[0, 1]`
(identity index function, alphabet size 2), inserting `[0]` succeeds and is a
structural no-op, yet `contains [0]` still answers `false` immediately after
the insertion — the claim "after `insert(v)`, `contains` of `v`'s sequence
returns true" fails when the inserted sequence exhausts strictly inside an
existing chain. -/
theorem claim1_counterexample :
    Reachable (fun n => n) 2 (Node.compressed [0, 1] (Node.empty : Node Nat)) ∧
    insertGo (fun n => n) 2 (Node.compressed [0, 1] (Node.empty : Node Nat)) [0] =
      Except.ok (Node.compressed [0, 1] Node.empty) ∧
    containsGo (fun n => n) (Node.compressed [0, 1] (Node.empty : Node Nat)) [0] =
      some false :=
  ⟨Reachable.step Reachable.new eval_id_insert_01, eval_id_reinsert_0, eval_id_contains_0⟩

/-- C1 (amended): on every reachable trie state, after a successful
`insert` of a part sequence, `contains` of that sequence either returns `true`
or returns exactly the (false) answer it gave before the insertion; the latter
happens exactly when the insertion was a no-op because the sequence exhausted
inside existing stored structure. -/
theorem claim1_amended_insert_then_contains {T : Type} (idx : T → Nat) (alpha : Nat)
    (n : Node T) (ps : List T) (n' : Node T)
    (_hreach : Reachable idx alpha n)
    (hins : insertGo idx alpha n ps = Except.ok n') :
    containsGo idx n' ps = some true ∨
      containsGo idx n' ps = containsGo idx n ps :=
  insertGo_ok_contains n ps n' hins

theorem claim1_amended_witness :
    containsGo (fun n => n) (Node.compressed [0, 1] (Node.empty : Node Nat)) [0, 1] =
        some true ∨
      containsGo (fun n => n) (Node.compressed [0, 1] (Node.empty : Node Nat)) [0, 1] =
        containsGo (fun n => n) Node.empty [0, 1] :=
  claim1_amended_insert_then_contains (fun n => n) 2 Node.empty [0, 1] _
    Reachable.new eval_id_insert_01

/-- C2 (code bug, evaluated): with the identity index function and alphabet
size 4, the pairwise-diverging sequences `[0,1]`, `[0,2]`, `[3,1]` are
inserted in this order into a fresh trie; every insertion succeeds, but
afterwards `contains [0,1]` answers `false`.  The third insertion mismatches
at position 0 of the chain `[0]` whose child is already a `Branch`; the code
re-uses that `Branch` (built to discriminate position-1 parts) one level up
instead of creating a new branch, so the subtree holding `[0,1]` and `[0,2]`
becomes unreachable, contradicting the spec's "`next`'s old subtree is
preserved and re-attached only under the branch that continues the
pre-existing sequence". -/
theorem claim2_divergence_split_loses_keys :
    insertGo (fun n => n) 4 (Node.empty : Node Nat) [0, 1] =
        Except.ok (Node.compressed [0, 1] Node.empty) ∧
    insertGo (fun n => n) 4 (Node.compressed [0, 1] (Node.empty : Node Nat)) [0, 2] =
        Except.ok (Node.compressed [0]
          (Node.normal [Node.empty, Node.compressed [] Node.empty,
            Node.compressed [] Node.empty, Node.empty])) ∧
    insertGo (fun n => n) 4
        (Node.compressed [0]
          (Node.normal [Node.empty, Node.compressed [] Node.empty,
            Node.compressed [] (Node.empty : Node Nat), Node.empty])) [3, 1] =
        Except.ok (Node.compressed []
          (Node.normal [Node.empty, Node.compressed [] Node.empty,
            Node.compressed [] Node.empty, Node.compressed [1] Node.empty])) ∧
    containsGo (fun n => n)
        (Node.compressed []
          (Node.normal [Node.empty, Node.compressed [] Node.empty,
            Node.compressed [] (Node.empty : Node Nat),
            Node.compressed [1] Node.empty])) [0, 1] = some false ∧
    containsGo (fun n => n)
        (Node.compressed []
          (Node.normal [Node.empty, Node.compressed [] Node.empty,
            Node.compressed [] (Node.empty : Node Nat),
            Node.compressed [1] Node.empty])) [3, 1] = some true :=
  ⟨eval4_insert_01, eval4_insert_02, eval4_insert_31,
   eval4_contains_01_lost, eval4_contains_31_present⟩

/-- C3: inserting a part sequence twice is the same as inserting it once — the
second insertion succeeds and returns the tree structurally unchanged, so every
subsequent `contains` query observes exactly the same answers. -/
theorem claim3_insert_idempotent {T : Type} (idx : T → Nat) (alpha : Nat)
    (n : Node T) (ps : List T) (n' : Node T)
    (hins : insertGo idx alpha n ps = Except.ok n') :
    insertGo idx alpha n' ps = Except.ok n' :=
  insertGo_idempotent n ps n' hins

theorem claim3_witness :
    insertGo (fun n => n) 2 (Node.compressed [0, 1] (Node.empty : Node Nat)) [0, 1] =
      Except.ok (Node.compressed [0, 1] Node.empty) :=
  claim3_insert_idempotent (fun n => n) 2 Node.empty [0, 1] _ eval_id_insert_01

/-- C4: on every trie state reachable by `new` and successful insertions, no
insertion can hit the `panic!()` that signals a `Chain` node whose direct child
is another `Chain` — reachable trees satisfy the invariant that a `Compressed`
node's child is `Empty` or `Normal`, and insertion preserves it. -/
theorem claim4_chain_child_panic_unreachable {T : Type} (idx : T → Nat) (alpha : Nat)
    (n : Node T) (hreach : Reachable idx alpha n) (ps : List T) :
    insertGo idx alpha n ps ≠ Except.error InsertError.chainChild :=
  good_insertGo_ne_chainChild n ps (reachable_good hreach)

theorem claim4_witness :
    insertGo (fun n => n) 2 (Node.compressed [0, 1] (Node.empty : Node Nat)) [0] ≠
      Except.error InsertError.chainChild :=
  claim4_chain_child_panic_unreachable (fun n => n) 2 _
    (Reachable.step Reachable.new eval_id_insert_01) [0]

/-- C5 (counterexample): a reachable trie can contain a `Chain` node holding
an *empty* parts sequence.  With the identity index function and alphabet
size 2, inserting `[0]` and then `[1]` mismatches at position 0 of the chain
`[0]`; the split drains the chain to its empty prefix and keeps it as a
`Chain { parts: [], .. }` rather than dropping it. -/
theorem claim5_counterexample :
    Reachable (fun n => n) 2 (Node.compressed ([] : List Nat)
      (Node.normal [Node.compressed [] Node.empty, Node.compressed [] Node.empty])) :=
  Reachable.step (Reachable.step Reachable.new eval_id_insert_0) eval_id_insert_1_after_0

/-- C5 (amended): on a mismatch split of a chain with an `Empty` child, the
portion of the chain's parts before the mismatch position *always* remains as
this `Chain`'s parts — it is kept even when empty, never dropped — and the
two remainders hang off a fresh `alphabet_size`-wide branch. -/
theorem claim5_amended_split_keeps_chain {T : Type} (idx : T → Nat) (alpha : Nat)
    {parts input pre : List T} {q : T} {qs : List T} {p : T} {ps : List T}
    (hw : chainWalk idx parts input = ChainStep.mismatch pre q qs p ps)
    (hp : idx p < alpha) (hq : idx q < alpha) :
    insertGo idx alpha (Node.compressed parts Node.empty) input =
      Except.ok (Node.compressed pre
        (Node.normal (((List.replicate alpha Node.empty).set (idx p)
          (Node.new_compressed ps)).set (idx q) (Node.new_compressed qs)))) := by
  have hnn : Node.new_normal
      [(idx p, Node.new_compressed ps), (idx q, Node.new_compressed qs)] alpha =
      some (Node.normal (((List.replicate alpha Node.empty).set (idx p)
        (Node.new_compressed ps)).set (idx q) (Node.new_compressed qs))) := by
    rw [Node.new_normal, if_pos (by simp [hp, hq])]
    simp
  rw [insertGo_chain_mismatch_empty hw]
  rw [hnn]

theorem claim5_amended_witness :
    insertGo (fun n => n) 2 (Node.compressed [0] (Node.empty : Node Nat)) [1] =
      Except.ok (Node.compressed []
        (Node.normal (((List.replicate 2 Node.empty).set 1
          (Node.new_compressed [])).set 0 (Node.new_compressed [])))) :=
  claim5_amended_split_keeps_chain (fun n => n) 2
    (by simp [chainWalk]) (by norm_num) (by norm_num)

/-- C6: every `Branch` array in a reachable trie has exactly `alphabet_size`
slots, and addressing a `Branch` slot with a part whose index-function output
is `≥ alphabet_size` makes `insert` fail fast with the out-of-bounds panic and
makes `contains` panic (`none`) — neither silently wraps or ignores the
part. -/
theorem claim6_oob_index_fails_fast {T : Type} (idx : T → Nat) (alpha : Nat) :
    (∀ n : Node T, Reachable idx alpha n → Good alpha n) ∧
    (∀ (children : List (Node T)) (p : T) (ps : List T),
      children.length = alpha → alpha ≤ idx p →
        insertGo idx alpha (Node.normal children) (p :: ps) =
            Except.error InsertError.oobIndex ∧
          containsGo idx (Node.normal children) (p :: ps) = none) := by
  constructor
  · intro n h
    exact reachable_good h
  · intro children p ps hlen hge
    have hnot : ¬ idx p < children.length := by omega
    exact ⟨insertGo_normal_cons_oob hnot, containsGo_normal_cons_oob ps hnot⟩

theorem claim6_witness :
    Good 1 (Node.empty : Node Nat) ∧
    (insertGo (fun n => n) 1 (Node.normal [(Node.empty : Node Nat)]) [5] =
        Except.error InsertError.oobIndex ∧
      containsGo (fun n => n) (Node.normal [(Node.empty : Node Nat)]) [5] = none) :=
  ⟨(claim6_oob_index_fails_fast (fun n => n) 1).1 Node.empty Reachable.new,
   (claim6_oob_index_fails_fast (fun n => n) 1).2 [Node.empty] 5 []
     (by simp) (by norm_num)⟩

/-- C7 (counterexample): the "in particular" clause fails: `[0]` and `[2]`
are index-equivalent under `fun n => n % 2`, and after a successful
`insert [0]` on a reachable trie (holding `[0, 1]`), `contains [2]` — like
`contains [0]` — still answers `false`, because the insertion was a prefix
no-op. -/
theorem claim7_counterexample :
    List.map (fun n => n % 2) [0] = List.map (fun n => n % 2) [2] ∧
    Reachable (fun n => n % 2) 2 (Node.compressed [0, 1] (Node.empty : Node Nat)) ∧
    insertGo (fun n => n % 2) 2 (Node.compressed [0, 1] (Node.empty : Node Nat)) [0] =
      Except.ok (Node.compressed [0, 1] Node.empty) ∧
    containsGo (fun n => n % 2) (Node.compressed [0, 1] (Node.empty : Node Nat)) [2] =
      some false :=
  ⟨by norm_num, Reachable.step Reachable.new eval_mod2_insert_01,
   eval_mod2_reinsert_0, eval_mod2_contains_2⟩

/-- C7 (amended): `contains` observes a query sequence only through the
position-wise index-function images of its parts: two sequences with equal
part-wise images receive the same answer on every tree — in particular, after
any insertion, `contains` answers on an index-equivalent sequence exactly what
it answers on the inserted sequence itself. -/
theorem claim7_amended_contains_index_equiv {T : Type} (idx : T → Nat)
    (n : Node T) (P Q : List T) (h : P.map idx = Q.map idx) :
    containsGo idx n P = containsGo idx n Q :=
  containsGo_congr n P Q h

theorem claim7_amended_witness :
    containsGo (fun n => n % 2) (Node.compressed [0, 1] (Node.empty : Node Nat)) [0] =
      containsGo (fun n => n % 2) (Node.compressed [0, 1] (Node.empty : Node Nat)) [2] :=
  claim7_amended_contains_index_equiv (fun n => n % 2) _ [0] [2] (by norm_num)

/-- C8: the float decompositions produce exactly the big-endian byte sequence
of the value's raw bit pattern (4 bytes for `f32`, 8 for `f64`), and they are
injective on bit patterns — so numerically equal floats with distinct bit
patterns (positive/negative zero, NaNs with different payloads) decompose to
different part sequences. -/
theorem claim8_float_decompose_big_endian :
    (∀ x : Nat, decomposeF32 x = bigEndianBytes 4 x ∧ (decomposeF32 x).length = 4) ∧
    (∀ x : Nat, decomposeF64 x = bigEndianBytes 8 x ∧ (decomposeF64 x).length = 8) ∧
    (∀ x y : Nat, x < 4294967296 → y < 4294967296 → x ≠ y →
      decomposeF32 x ≠ decomposeF32 y) ∧
    (∀ x y : Nat, x < 18446744073709551616 → y < 18446744073709551616 → x ≠ y →
      decomposeF64 x ≠ decomposeF64 y) :=
  ⟨fun x => ⟨decomposeF32_eq_bigEndianBytes x, rfl⟩,
   fun x => ⟨decomposeF64_eq_bigEndianBytes x, rfl⟩,
   fun _ _ hx hy hne => decomposeF32_injective hx hy hne,
   fun _ _ hx hy hne => decomposeF64_injective hx hy hne⟩

/-- Witness for C8 at the bit patterns of `0.0f32` vs `-0.0f32`
(`0x0000_0000` vs `0x8000_0000`), two `f32` NaNs differing only in payload
(`0x7FC0_0000` vs `0x7FC0_0001`), and `0.0f64` vs `-0.0f64`. -/
theorem claim8_witness :
    decomposeF32 0 ≠ decomposeF32 2147483648 ∧
    decomposeF32 2143289344 ≠ decomposeF32 2143289345 ∧
    decomposeF64 0 ≠ decomposeF64 9223372036854775808 :=
  ⟨claim8_float_decompose_big_endian.2.2.1 0 2147483648
      (by norm_num) (by norm_num) (by norm_num),
   claim8_float_decompose_big_endian.2.2.1 2143289344 2143289345
      (by norm_num) (by norm_num) (by norm_num),
   claim8_float_decompose_big_endian.2.2.2 0 9223372036854775808
      (by norm_num) (by norm_num) (by norm_num)⟩

/-- C9: inserting a value whose decomposition yields zero parts never changes
the tree: the `Empty` arm replaces nothing, the `Branch` arm stops, and the
`Chain` arm breaks out without touching the chain. -/
theorem claim9_insert_empty_decomposition_noop {T : Type} (idx : T → Nat)
    (alpha : Nat) (n : Node T) :
    insertGo idx alpha n [] = Except.ok n := by
  cases n with
  | empty =>
    rw [insertGo_empty]
    rfl
  | normal children => exact insertGo_normal_nil children
  | compressed parts child =>
    refine insertGo_chain_noChange ?_
    cases parts <;> rfl

/-- C10: on a freshly constructed trie, `contains` of the empty part sequence
returns `true` even though nothing was ever inserted, and on every reachable
state whose root is no longer `Empty` it returns `false`. -/
theorem claim10_contains_empty_sequence {T : Type} (index_fn : T → Nat)
    (alphabet_size : Nat) :
    (Trie.new index_fn alphabet_size).contains [] = some true ∧
    (∀ n : Node T, Reachable index_fn alphabet_size n → n ≠ Node.empty →
      containsGo index_fn n [] = some false) := by
  constructor
  · rw [Trie.contains, Trie.new, containsGo_empty]
    rfl
  · intro n hr hne
    exact reachable_contains_nil_false hr hne

theorem claim10_witness :
    (Trie.new (fun n : Nat => n) 2).contains [] = some true ∧
    containsGo (fun n : Nat => n) (Node.compressed [0] Node.empty) [] = some false :=
  ⟨(claim10_contains_empty_sequence (fun n => n) 2).1,
   (claim10_contains_empty_sequence (fun n => n) 2).2 _
     (Reachable.step Reachable.new eval_id_insert_0) (by simp)⟩

end Claims

end Triez
